import Mathlib

/-!
Shallow embedding of ftg_toolbox_public (ftg_base89.h, ftg_bitbuffer.h) in Lean 4,
with theorems checking the natural-language specification against the code.

Bytes and 64-bit segments are modelled as `Nat` with explicit `% 2 ^ 64` where the
C 64-bit arithmetic can wrap.  Byte strings are `List Nat` (each element < 256),
in memory order; 32/64-bit loads from byte strings are little-endian, as the
library itself assumes.
-/

namespace Ftg

/-! ## B89: constants and byte/word conversion (ftg_base89.h) -/

def B89_ST : Nat := 0x03

def B89_ERROR_INDEX : Nat := 0

def B89_CODE_MAX : Nat := 704968

def ORD_MIN : Nat := 38

def ORD_MAX : Nat := 126

def ORD_BASE : Nat := 89

/-- Little-endian value of a byte list: the first list element is the
least-significant byte, as produced by `memcpy` into an integer on the
little-endian targets the library supports. -/
def wordOfBytes : List Nat → Nat
  | [] => 0
  | b :: rest => b + 256 * wordOfBytes rest

/-! ## B89: decode_base89, b89_pack, b89_unpack -/

/-- Embedding of `decode_base89` (ftg_base89.h:340-362): extract the four bytes of
the packed 32-bit code, validate the leader and the three digits, apply Horner's
rule in base 89, and gate the result by `max_index`. -/
def decode_base89 (packed_code max_index : Nat) : Nat :=
  let st := packed_code &&& 0xFF
  let c1 := (packed_code >>> 8) &&& 0xFF
  let c2 := (packed_code >>> 16) &&& 0xFF
  let c3 := (packed_code >>> 24) &&& 0xFF
  if st ≠ B89_ST ∨ c1 < ORD_MIN ∨ c1 > ORD_MAX ∨ c2 < ORD_MIN ∨ c2 > ORD_MAX ∨
      c3 < ORD_MIN ∨ c3 > ORD_MAX then
    0
  else
    let c1 := c1 - ORD_MIN
    let c2 := c2 - ORD_MIN
    let c3 := c3 - ORD_MIN
    let index := ((c3 * ORD_BASE) + c2) * ORD_BASE + c1
    if index ≤ max_index then index else 0

/-- Embedding of `b89_pack` (ftg_base89.h:409-426): emit the escape byte and the
three base-89 digits, least significant first. -/
def b89_pack (index : Nat) : List Nat :=
  let c1 := index % 89
  let index1 := index / 89
  let c2 := index1 % 89
  let index2 := index1 / 89
  let c3 := index2 % 89
  [B89_ST, c1 + ORD_MIN, c2 + ORD_MIN, c3 + ORD_MIN]

/-- Embedding of `b89_unpack` (ftg_base89.h:428-436): load 4 bytes little-endian
and decode. -/
def b89_unpack (bytes : List Nat) (max_index : Nat) : Nat :=
  decode_base89 (wordOfBytes (bytes.take 4)) max_index

/-- Spec-side restatement of the decode rule, written from the words of the
specification (section 4.1.2): return 0 on a bad leader byte or a digit outside
the alphabet, otherwise the Horner-rule index with digit order (d2, d1, d0),
gated to 0 when above `max_index`. -/
def b89_decode_spec (b0 b1 b2 b3 max_index : Nat) : Nat :=
  if b0 ≠ 0x03 ∨ b1 < 38 ∨ b1 > 126 ∨ b2 < 38 ∨ b2 > 126 ∨ b3 < 38 ∨ b3 > 126 then
    0
  else
    let d0 := b1 - 38
    let d1 := b2 - 38
    let d2 := b3 - 38
    let index := ((d2 * 89) + d1) * 89 + d0
    if index > max_index then 0 else index

lemma wordOfBytes_four (b0 b1 b2 b3 : Nat) :
    wordOfBytes [b0, b1, b2, b3] = b0 + 256 * b1 + 65536 * b2 + 16777216 * b3 := by
  simp [wordOfBytes]; ring

lemma and_255_eq_mod (n : Nat) : n &&& 0xFF = n % 256 := by
  have h : (0xFF : Nat) = 2 ^ 8 - 1 := by norm_num
  rw [h, Nat.and_pow_two_sub_one_eq_mod]

/-- Byte-level characterization of `decode_base89` on a little-endian packed word
built from four bytes. -/
lemma decode_base89_bytes (b0 b1 b2 b3 m : Nat)
    (h0 : b0 < 256) (h1 : b1 < 256) (h2 : b2 < 256) (h3 : b3 < 256) :
    decode_base89 (wordOfBytes [b0, b1, b2, b3]) m = b89_decode_spec b0 b1 b2 b3 m := by
  have hw := wordOfBytes_four b0 b1 b2 b3
  have e0 : wordOfBytes [b0, b1, b2, b3] &&& 0xFF = b0 := by
    rw [and_255_eq_mod, hw]; omega
  have e1 : (wordOfBytes [b0, b1, b2, b3] >>> 8) &&& 0xFF = b1 := by
    rw [and_255_eq_mod, Nat.shiftRight_eq_div_pow, hw]; norm_num; omega
  have e2 : (wordOfBytes [b0, b1, b2, b3] >>> 16) &&& 0xFF = b2 := by
    rw [and_255_eq_mod, Nat.shiftRight_eq_div_pow, hw]; norm_num; omega
  have e3 : (wordOfBytes [b0, b1, b2, b3] >>> 24) &&& 0xFF = b3 := by
    rw [and_255_eq_mod, Nat.shiftRight_eq_div_pow, hw]; norm_num; omega
  unfold decode_base89 b89_decode_spec
  rw [e0, e1, e2, e3]
  by_cases hbad : b0 ≠ 0x03 ∨ b1 < 38 ∨ b1 > 126 ∨ b2 < 38 ∨ b2 > 126 ∨ b3 < 38 ∨ b3 > 126
  · simp only [B89_ST, ORD_MIN, ORD_MAX, hbad, if_true]
  · simp only [B89_ST, ORD_MIN, ORD_MAX, ORD_BASE, hbad, if_false]
    by_cases hle : ((b3 - 38) * 89 + (b2 - 38)) * 89 + (b1 - 38) ≤ m
    · simp [hle, Nat.not_lt_of_le hle]
    · simp [hle, Nat.lt_of_not_le hle]

/-- C2: for every 4-byte input (as a little-endian packed 32-bit word) and every
max_index, `b89_unpack` returns 0 when byte 0 is not 0x03 or a digit byte lies
outside [38, 126], and otherwise the Horner-rule index ((d2*89)+d1)*89+d0 with
di = byte(i+1)-38, gated to 0 when the index exceeds max_index. -/
theorem b89_unpack_decode_correct (b0 b1 b2 b3 m : Nat)
    (h0 : b0 < 256) (h1 : b1 < 256) (h2 : b2 < 256) (h3 : b3 < 256) :
    b89_unpack [b0, b1, b2, b3] m = b89_decode_spec b0 b1 b2 b3 m := by
  unfold b89_unpack
  simpa using decode_base89_bytes b0 b1 b2 b3 m h0 h1 h2 h3

/-- Witness for C2: the concrete code bytes of scenario S1 decode to 192, and a
bad leader byte decodes to 0. -/
theorem b89_unpack_decode_correct_witness :
    b89_unpack [0x03, 0x3F, 0x28, 0x26] 1000 = b89_decode_spec 0x03 0x3F 0x28 0x26 1000 ∧
    b89_unpack [0x04, 0x3F, 0x28, 0x26] 1000 = b89_decode_spec 0x04 0x3F 0x28 0x26 1000 := by
  constructor
  · exact b89_unpack_decode_correct 0x03 0x3F 0x28 0x26 1000 (by decide) (by decide)
      (by decide) (by decide)
  · exact b89_unpack_decode_correct 0x04 0x3F 0x28 0x26 1000 (by decide) (by decide)
      (by decide) (by decide)

/-- C3: packing an index I in [0, 704968] and unpacking with any max_index ≥ I
returns exactly I. -/
theorem b89_pack_unpack_roundtrip (I max_index : Nat)
    (hI : I ≤ 704968) (hmax : I ≤ max_index) :
    b89_unpack (b89_pack I) max_index = I := by
  have hmod : I % 89 < 89 := Nat.mod_lt _ (by norm_num)
  have hmod2 : I / 89 % 89 < 89 := Nat.mod_lt _ (by norm_num)
  have hdd : I / 89 / 89 < 89 := by
    rw [Nat.div_div_eq_div_mul]
    omega
  have hmod3 : I / 89 / 89 % 89 = I / 89 / 89 := Nat.mod_eq_of_lt hdd
  unfold b89_pack
  rw [b89_unpack_decode_correct _ _ _ _ _ (by simp [B89_ST]) (by simp [ORD_MIN]; omega)
    (by simp [ORD_MIN]; omega) (by simp [ORD_MIN]; omega)]
  unfold b89_decode_spec
  simp only [B89_ST, ORD_MIN]
  have e : ∀ a : Nat, a + 38 - 38 = a := fun a => by omega
  simp only [e, hmod3]
  have hh : (I / 89 / 89 * 89 + I / 89 % 89) * 89 + I % 89 = I := by
    conv_rhs => rw [← Nat.div_add_mod I 89, ← Nat.div_add_mod (I / 89) 89]
    ring
  simp only [hh]
  have hcond : ¬ ((3 : Nat) ≠ 3 ∨ I % 89 + 38 < 38 ∨ I % 89 + 38 > 126 ∨
      I / 89 % 89 + 38 < 38 ∨ I / 89 % 89 + 38 > 126 ∨
      I / 89 / 89 + 38 < 38 ∨ I / 89 / 89 + 38 > 126) := by
    omega
  rw [if_neg hcond, if_neg (by omega : ¬ I > max_index)]

/-- Witness for C3: scenario S1, index 192 with max_index 1000. -/
theorem b89_pack_unpack_roundtrip_witness :
    b89_unpack (b89_pack 192) 1000 = 192 :=
  b89_pack_unpack_roundtrip 192 1000 (by decide) (by decide)

/-- C10: for every index (including values above 704968, which violate the
documented precondition), `b89_pack` emits a well-formed code — leader 0x03 and
three digit bytes in [38, 126] — and produces exactly the bytes of
`b89_pack (index % 704969)`. -/
theorem b89_pack_total (index : Nat) :
    (b89_pack index).getD 0 0 = 0x03 ∧
    (∀ i, 1 ≤ i → i ≤ 3 → 38 ≤ (b89_pack index).getD i 0 ∧ (b89_pack index).getD i 0 ≤ 126) ∧
    b89_pack index = b89_pack (index % 704969) := by
  refine ⟨by simp [b89_pack, B89_ST], ?_, ?_⟩
  · intro i hi1 hi3
    have h1 : index % 89 < 89 := Nat.mod_lt _ (by norm_num)
    have h2 : index / 89 % 89 < 89 := Nat.mod_lt _ (by norm_num)
    have h3 : index / 89 / 89 % 89 < 89 := Nat.mod_lt _ (by norm_num)
    interval_cases i <;> simp [b89_pack, ORD_MIN] <;> omega
  · have d1 : index % 704969 % 89 = index % 89 :=
      Nat.mod_mod_of_dvd index (by norm_num)
    have d2 : index % 704969 / 89 % 89 = index / 89 % 89 := by
      have h89 : (704969 : Nat) = 89 * 7921 := by norm_num
      rw [h89, Nat.mod_mul_right_div_self]
      have h7921 : (7921 : Nat) = 89 * 89 := by norm_num
      rw [h7921, Nat.mod_mod_of_dvd _ (Dvd.intro 89 rfl)]
    have d3 : index % 704969 / 89 / 89 % 89 = index / 89 / 89 % 89 := by
      rw [Nat.div_div_eq_div_mul, Nat.div_div_eq_div_mul]
      have h89 : (704969 : Nat) = 89 * 89 * 89 := by norm_num
      rw [h89, Nat.mod_mul_right_div_self]
      exact Nat.mod_mod_of_dvd _ (dvd_refl 89)
    simp only [b89_pack]
    rw [d1, d2, d3]

/-- Witness for C10: index 800000 exceeds 704968; its pack equals the pack of
800000 mod 704969 and its digit bytes are in range. -/
theorem b89_pack_total_witness :
    b89_pack 800000 = b89_pack (800000 % 704969) ∧
    38 ≤ (b89_pack 800000).getD 1 0 ∧ (b89_pack 800000).getD 1 0 ≤ 126 ∧
    (b89_pack 800000).getD 0 0 = 0x03 :=
  ⟨(b89_pack_total 800000).2.2,
    ((b89_pack_total 800000).2.1 1 (by norm_num) (by norm_num)).1,
    ((b89_pack_total 800000).2.1 1 (by norm_num) (by norm_num)).2,
    (b89_pack_total 800000).1⟩

/-! ## BITBUF: data model (ftg_bitbuffer.h)

A buffer's `data` is its list of 64-bit segments (each entry < 2 ^ 64); a cursor
stores its segment index (the C pointer `seg` minus `data`) and bit offset.
The `owner_set` flag models the C `owner` pointer being non-NULL (for the write
cursor this is the freeze marker set by `bitbuf_cursor_init`).  C `assert`
macros have no effect on state and are not modelled. -/

def BITBUF__SEG_BITS : Nat := 64

/-- Embedding of the C macro `BITBUF__ALIGN_UP(n, a)` = `((n + a - 1) & ~(a-1))`
for a power-of-two `a`, written with `%` (equal to the masked form). -/
def BITBUF__ALIGN_UP (n a : Nat) : Nat := (n + a - 1) - ((n + a - 1) % a)

/-- Embedding of `bitbuf__spanmasktable`: entry `n` is the low-`n`-bits mask;
every entry of the C table (0, (1<<1)-1, ..., 0x7fffffffffffffff,
0xffffffffffffffff) equals `2 ^ n - 1`. -/
def bitbuf__spanmasktable (n : Nat) : Nat := 2 ^ n - 1

structure bitbuf_cursor_t where
  seg : Nat
  bits_into_seg : Nat
  owner_set : Bool
  read_past_end : Bool
deriving Repr, DecidableEq

structure bitbuf_buffer_t where
  data : List Nat
  capacity_bytes : Nat
  truncated : Bool
  write : bitbuf_cursor_t
deriving Repr, DecidableEq

/-- Embedding of `bitbuf_alloc_buffer` (ftg_bitbuffer.h:396-416): round the
requested size up to a whole number of segments, zero-fill, write cursor at the
start.  (C leaves `write.read_past_end` uninitialized; the model sets false.) -/
def bitbuf_alloc_buffer (max_bytes : Nat) : bitbuf_buffer_t :=
  let capacity_bytes := BITBUF__ALIGN_UP max_bytes 8
  { data := List.replicate (capacity_bytes / 8) 0
    capacity_bytes := capacity_bytes
    truncated := false
    write := { seg := 0, bits_into_seg := 0, owner_set := false, read_past_end := false } }

/-- Embedding of `bitbuf_cursor_init` (ftg_bitbuffer.h:485-497): mark the write
cursor's owner (freezing the buffer) and return a read cursor at the start. -/
def bitbuf_cursor_init (buffer : bitbuf_buffer_t) : bitbuf_buffer_t × bitbuf_cursor_t :=
  ({ buffer with write := { buffer.write with owner_set := true } },
   { seg := 0, bits_into_seg := 0, owner_set := true, read_past_end := false })

/-- Embedding of `bitbuf_has_truncated`. -/
def bitbuf_has_truncated (buffer : bitbuf_buffer_t) : Bool := buffer.truncated

/-- Embedding of `bitbuf__remaining_capacity_in_bits` (ftg_bitbuffer.h:499-513),
returning a `ptrdiff_t` modelled as `Int`. -/
def bitbuf__remaining_capacity_in_bits (buffer : bitbuf_buffer_t) : Int :=
  let completed_seg_bits := buffer.write.seg * BITBUF__SEG_BITS
  let total_bits_used := completed_seg_bits + buffer.write.bits_into_seg
  (buffer.capacity_bytes * 8 : Int) - total_bits_used

/-- Embedding of `bitbuf__bits_remaining_for_cursor` (ftg_bitbuffer.h:515-526).
Note the C function counts the cursor's current segment both in
`remaining_segs` and again via `remaining_bits`. -/
def bitbuf__bits_remaining_for_cursor (buffer : bitbuf_buffer_t)
    (cursor : bitbuf_cursor_t) : Int :=
  let remaining_segs : Int := (buffer.capacity_bytes / 8 : Nat) - (cursor.seg : Int)
  let remaining_bits : Int := (BITBUF__SEG_BITS : Int) - (cursor.bits_into_seg : Int)
  remaining_segs * BITBUF__SEG_BITS + remaining_bits

/-- Embedding of `bitbuf__advance_cursor` (ftg_bitbuffer.h:535-540). -/
def bitbuf__advance_cursor (cursor : bitbuf_cursor_t) : bitbuf_cursor_t :=
  { cursor with bits_into_seg := 0, seg := cursor.seg + 1 }

/-- Embedding of `bitbuf__write_bits` (ftg_bitbuffer.h:542-592).  The C function
recurses on the remainder when a value straddles a segment boundary; the `fuel`
argument bounds that recursion depth (the top-level call passes `num_bits + 1`,
which can never be exhausted: each recursive call strictly decreases
`num_bits`, by `bits_remaining_in_seg ≥ 1` whenever `bits_into_seg < 64`, and a
recursive call happens only then).  64-bit left shifts wrap modulo `2 ^ 64` as
in C. -/
def bitbuf__write_bits_fuel : Nat → bitbuf_buffer_t → Nat → Nat → bitbuf_buffer_t
  | 0, buffer, _, _ => buffer
  | fuel + 1, buffer, datum, num_bits =>
    if num_bits > 64 then buffer
    else if bitbuf__remaining_capacity_in_bits buffer < (num_bits : Int) then
      { buffer with truncated := true }
    else
      let bits_remaining_in_seg := BITBUF__SEG_BITS - buffer.write.bits_into_seg
      if num_bits ≤ bits_remaining_in_seg then
        let SRC_MASK := bitbuf__spanmasktable num_bits
        let seg_val := (buffer.data.getD buffer.write.seg 0) |||
          ((datum &&& SRC_MASK) <<< buffer.write.bits_into_seg) % 2 ^ 64
        let buffer1 := { buffer with
          data := buffer.data.set buffer.write.seg seg_val
          write := { buffer.write with
            bits_into_seg := buffer.write.bits_into_seg + num_bits } }
        if buffer1.write.bits_into_seg = BITBUF__SEG_BITS then
          { buffer1 with write := bitbuf__advance_cursor buffer1.write }
        else buffer1
      else
        let SRC_MASK := bitbuf__spanmasktable bits_remaining_in_seg
        let seg_val := (buffer.data.getD buffer.write.seg 0) |||
          ((datum &&& SRC_MASK) <<< (BITBUF__SEG_BITS - bits_remaining_in_seg)) % 2 ^ 64
        let buffer1 := { buffer with
          data := buffer.data.set buffer.write.seg seg_val
          write := bitbuf__advance_cursor buffer.write }
        let num_bits_remaining_for_next_write := num_bits - bits_remaining_in_seg
        let OVER_MASK :=
          (bitbuf__spanmasktable num_bits_remaining_for_next_write <<<
            bits_remaining_in_seg) % 2 ^ 64
        bitbuf__write_bits_fuel fuel buffer1
          ((datum &&& OVER_MASK) >>> bits_remaining_in_seg)
          num_bits_remaining_for_next_write

def bitbuf__write_bits (buffer : bitbuf_buffer_t) (datum num_bits : Nat) :
    bitbuf_buffer_t :=
  bitbuf__write_bits_fuel (num_bits + 1) buffer datum num_bits

/-- Embedding of `bitbuf__read_bits` (ftg_bitbuffer.h:595-650).  The read cursor's
owning buffer (the C `read->owner` pointer) is passed explicitly.  Returns the
value read and the updated cursor. -/
def bitbuf__read_bits (buffer : bitbuf_buffer_t) (read : bitbuf_cursor_t)
    (num_bits : Nat) : Nat × bitbuf_cursor_t :=
  if num_bits > 64 then (0, read)
  else if bitbuf__bits_remaining_for_cursor buffer read < (num_bits : Int) then
    (0, { read with read_past_end := true })
  else
    let bits_remaining_in_seg := BITBUF__SEG_BITS - read.bits_into_seg
    if num_bits ≤ bits_remaining_in_seg then
      let DST_MASK := (bitbuf__spanmasktable num_bits <<< read.bits_into_seg) % 2 ^ 64
      let val := ((buffer.data.getD read.seg 0) &&& DST_MASK) >>> read.bits_into_seg
      let read1 := { read with bits_into_seg := read.bits_into_seg + num_bits }
      if read1.bits_into_seg = BITBUF__SEG_BITS then (val, bitbuf__advance_cursor read1)
      else (val, read1)
    else
      let DST_MASK := (bitbuf__spanmasktable bits_remaining_in_seg <<<
        (BITBUF__SEG_BITS - bits_remaining_in_seg)) % 2 ^ 64
      let val := ((buffer.data.getD read.seg 0) &&& DST_MASK) >>>
        (BITBUF__SEG_BITS - bits_remaining_in_seg)
      let read1 := bitbuf__advance_cursor read
      let next_read_num_bits := num_bits - bits_remaining_in_seg
      let OVER_MASK := bitbuf__spanmasktable next_read_num_bits
      let val1 := val |||
        (((buffer.data.getD read1.seg 0) &&& OVER_MASK) <<< bits_remaining_in_seg) % 2 ^ 64
      (val1, { read1 with bits_into_seg := read1.bits_into_seg + next_read_num_bits })

/-! ## BITBUF: operation sequences

The primitive operations a program can apply to one buffer and its read
cursors, used to state the sticky-flag and cursor-invariant claims. -/

inductive BitbufOp
  | writeBits (datum num_bits : Nat)
  | cursorInit
  | readBits (cursor_idx num_bits : Nat)

structure bitbuf_state where
  buffer : bitbuf_buffer_t
  cursors : List bitbuf_cursor_t

def bitbuf_step (s : bitbuf_state) : BitbufOp → bitbuf_state
  | .writeBits d n => { s with buffer := bitbuf__write_bits s.buffer d n }
  | .cursorInit =>
    let p := bitbuf_cursor_init s.buffer
    { buffer := p.1, cursors := s.cursors ++ [p.2] }
  | .readBits i n =>
    { s with cursors :=
        (s.cursors.set i
          (bitbuf__read_bits s.buffer (s.cursors.getD i ⟨0, 0, true, false⟩) n).2) }

def bitbuf_run (s : bitbuf_state) (ops : List BitbufOp) : bitbuf_state :=
  ops.foldl bitbuf_step s

/-! ## BITBUF: truncation (C5) -/

lemma bitbuf__write_bits_fuel_truncated_mono (fuel : Nat) :
    ∀ (buffer : bitbuf_buffer_t) (datum num_bits : Nat),
      buffer.truncated = true →
      (bitbuf__write_bits_fuel fuel buffer datum num_bits).truncated = true := by
  induction fuel with
  | zero => intro buffer datum num_bits h; simpa [bitbuf__write_bits_fuel] using h
  | succ fuel ih =>
    intro buffer datum num_bits h
    unfold bitbuf__write_bits_fuel
    dsimp only
    split
    · exact h
    · split
      · exact rfl
      · split
        · split
          · exact h
          · exact h
        · exact ih _ _ _ h

lemma bitbuf__write_bits_truncated_mono (buffer : bitbuf_buffer_t) (d n : Nat)
    (h : buffer.truncated = true) :
    (bitbuf__write_bits buffer d n).truncated = true :=
  bitbuf__write_bits_fuel_truncated_mono _ _ _ _ h

lemma bitbuf_step_truncated_mono (s : bitbuf_state) (op : BitbufOp)
    (h : s.buffer.truncated = true) : (bitbuf_step s op).buffer.truncated = true := by
  cases op with
  | writeBits d n => exact bitbuf__write_bits_truncated_mono _ _ _ h
  | cursorInit => simpa [bitbuf_step, bitbuf_cursor_init] using h
  | readBits i n => simpa [bitbuf_step] using h

/-- C5: a write whose bit count exceeds the remaining capacity only sets the
sticky `truncated` flag — segments, write cursor position and all other fields
are unchanged — and no subsequent sequence of library operations (writes,
cursor creation, reads) ever clears `truncated`. -/
theorem bitbuf_truncation_sticky :
    (∀ (buffer : bitbuf_buffer_t) (d n : Nat), n ≤ 64 →
      bitbuf__remaining_capacity_in_bits buffer < (n : Int) →
      bitbuf__write_bits buffer d n = { buffer with truncated := true }) ∧
    (∀ (s : bitbuf_state) (ops : List BitbufOp), s.buffer.truncated = true →
      (bitbuf_run s ops).buffer.truncated = true) := by
  constructor
  · intro buffer d n hn hcap
    unfold bitbuf__write_bits bitbuf__write_bits_fuel
    rw [if_neg (by omega), if_pos hcap]
  · intro s ops
    induction ops generalizing s with
    | nil => intro h; exact h
    | cons op rest ih =>
      intro h
      exact ih _ (bitbuf_step_truncated_mono s op h)

/-- Witness for C5: a buffer holding one 64-bit segment with one bit already
written truncates on a 64-bit write, leaving everything but the flag unchanged;
the flag survives a subsequent operation sequence. -/
theorem bitbuf_truncation_sticky_witness :
    (bitbuf__write_bits (bitbuf__write_bits (bitbuf_alloc_buffer 1) 1 1) 0xFF 64 =
      { bitbuf__write_bits (bitbuf_alloc_buffer 1) 1 1 with truncated := true }) ∧
    (bitbuf_run ⟨{ bitbuf_alloc_buffer 1 with truncated := true }, []⟩
      [.cursorInit, .readBits 0 8]).buffer.truncated = true := by
  constructor
  · exact bitbuf_truncation_sticky.1 (bitbuf__write_bits (bitbuf_alloc_buffer 1) 1 1)
      0xFF 64 (by decide) (by decide)
  · exact bitbuf_truncation_sticky.2 _ _ rfl

/-! ## BITBUF: write after freeze (C4)

The claim says a write attempted after `bitbuf_cursor_init` does not proceed.
In the source the guard is only `BITBUF__ASSERT_NO_WRITE_AFTER_READS`, which has
no effect on execution (it is an assertion); the function then writes normally.
The counterexample below shows a post-freeze write changing a segment; the
amended theorem shows a post-freeze write behaves exactly like the same write
before freezing. -/

lemma bitbuf__write_bits_fuel_owner_comm (fuel : Nat) :
    ∀ (data : List Nat) (cap : Nat) (t : Bool) (s b : Nat) (o r : Bool) (d n : Nat),
      bitbuf__write_bits_fuel fuel ⟨data, cap, t, ⟨s, b, o, r⟩⟩ d n =
        { bitbuf__write_bits_fuel fuel ⟨data, cap, t, ⟨s, b, false, r⟩⟩ d n with
            write := { (bitbuf__write_bits_fuel fuel ⟨data, cap, t, ⟨s, b, false, r⟩⟩ d n).write
              with owner_set := o } } := by
  induction fuel with
  | zero => intro data cap t s b o r d n; rfl
  | succ fuel ih =>
    intro data cap t s b o r d n
    unfold bitbuf__write_bits_fuel
    dsimp only [bitbuf__advance_cursor, bitbuf__remaining_capacity_in_bits]
    split
    · rfl
    · split
      · rfl
      · split
        · split
          · rfl
          · rfl
        · exact ih _ _ _ _ _ _ _ _ _

/-- Counterexample for C4: allocate a one-segment buffer, freeze it with
`bitbuf_cursor_init`, then write one bit — the segment contents change, so the
attempted write does proceed, contrary to the claim. -/
theorem bitbuf_write_after_freeze_counterexample :
    (bitbuf__write_bits (bitbuf_cursor_init (bitbuf_alloc_buffer 8)).1 1 1).data ≠
      (bitbuf_cursor_init (bitbuf_alloc_buffer 8)).1.data := by
  decide

/-- C4 (amended): after `bitbuf_cursor_init` has frozen the buffer, a subsequent
write triggers only the programming-error assertion; the write still proceeds
and updates segments, write cursor and truncated flag exactly as the identical
write would have before freezing (the freeze marker does not alter write
behaviour). -/
theorem bitbuf_write_after_freeze_proceeds (buffer : bitbuf_buffer_t) (d n : Nat) :
    (bitbuf__write_bits (bitbuf_cursor_init buffer).1 d n).data =
        (bitbuf__write_bits buffer d n).data ∧
    (bitbuf__write_bits (bitbuf_cursor_init buffer).1 d n).truncated =
        (bitbuf__write_bits buffer d n).truncated ∧
    (bitbuf__write_bits (bitbuf_cursor_init buffer).1 d n).write.seg =
        (bitbuf__write_bits buffer d n).write.seg ∧
    (bitbuf__write_bits (bitbuf_cursor_init buffer).1 d n).write.bits_into_seg =
        (bitbuf__write_bits buffer d n).write.bits_into_seg := by
  have h1 := bitbuf__write_bits_fuel_owner_comm (n + 1) buffer.data buffer.capacity_bytes
    buffer.truncated buffer.write.seg buffer.write.bits_into_seg true
    buffer.write.read_past_end d n
  have h2 := bitbuf__write_bits_fuel_owner_comm (n + 1) buffer.data buffer.capacity_bytes
    buffer.truncated buffer.write.seg buffer.write.bits_into_seg buffer.write.owner_set
    buffer.write.read_past_end d n
  refine ⟨?_, ?_, ?_, ?_⟩
  · exact (congrArg bitbuf_buffer_t.data h1).trans (congrArg bitbuf_buffer_t.data h2).symm
  · exact (congrArg bitbuf_buffer_t.truncated h1).trans
      (congrArg bitbuf_buffer_t.truncated h2).symm
  · exact (congrArg (fun x => x.write.seg) h1).trans
      (congrArg (fun x => x.write.seg) h2).symm
  · exact (congrArg (fun x => x.write.bits_into_seg) h1).trans
      (congrArg (fun x => x.write.bits_into_seg) h2).symm

/-! ## BITBUF: cursor invariant (C9) -/

/-- Invariant claimed for every cursor after each primitive operation:
`bits_into_seg` stays strictly below 64 (it is a `Nat`, so `0 ≤` is inherent). -/
def bitbuf_state_inv (s : bitbuf_state) : Prop :=
  s.buffer.write.bits_into_seg < 64 ∧ ∀ c ∈ s.cursors, c.bits_into_seg < 64

lemma bitbuf__write_bits_fuel_bits_lt (fuel : Nat) :
    ∀ (buffer : bitbuf_buffer_t) (d n : Nat), buffer.write.bits_into_seg < 64 →
      (bitbuf__write_bits_fuel fuel buffer d n).write.bits_into_seg < 64 := by
  induction fuel with
  | zero => intro buffer d n h; exact h
  | succ fuel ih =>
    intro buffer d n h
    unfold bitbuf__write_bits_fuel
    dsimp only [BITBUF__SEG_BITS, bitbuf__advance_cursor]
    split
    · exact h
    · split
      · exact h
      · split
        · split
          · dsimp only; omega
          · dsimp only; omega
        · apply ih
          dsimp only
          omega

lemma bitbuf__read_bits_bits_lt (buffer : bitbuf_buffer_t) (cur : bitbuf_cursor_t)
    (n : Nat) (h : cur.bits_into_seg < 64) :
    (bitbuf__read_bits buffer cur n).2.bits_into_seg < 64 := by
  unfold bitbuf__read_bits
  dsimp only [BITBUF__SEG_BITS, bitbuf__advance_cursor]
  split
  · exact h
  · split
    · exact h
    · split
      · split
        · dsimp only; omega
        · dsimp only; omega
      · dsimp only; omega

lemma bitbuf_step_inv (s : bitbuf_state) (op : BitbufOp) (h : bitbuf_state_inv s) :
    bitbuf_state_inv (bitbuf_step s op) := by
  obtain ⟨hw, hc⟩ := h
  cases op with
  | writeBits d n => exact ⟨bitbuf__write_bits_fuel_bits_lt _ _ _ _ hw, hc⟩
  | cursorInit =>
    refine ⟨hw, ?_⟩
    intro c hmem
    rcases List.mem_append.mp hmem with h1 | h2
    · exact hc c h1
    · have : c = ⟨0, 0, true, false⟩ := by simpa using h2
      rw [this]
      norm_num
  | readBits i n =>
    refine ⟨hw, ?_⟩
    intro c hmem
    rcases List.mem_or_eq_of_mem_set hmem with h1 | h2
    · exact hc c h1
    · rw [h2]
      apply bitbuf__read_bits_bits_lt
      rcases Nat.lt_or_ge i s.cursors.length with hlt | hge
      · rw [List.getD_eq_getElem?_getD, List.getElem?_eq_getElem hlt]
        exact hc _ (List.getElem_mem hlt)
      · rw [List.getD_eq_getElem?_getD, List.getElem?_eq_none hge]
        norm_num

/-- C9: along every sequence of primitive write/read/cursor-creation
operations, the write cursor and every read cursor keep
`0 ≤ bits_into_seg < 64`; an operation that fills a segment exactly advances
the cursor to the next segment index with `bits_into_seg` reset to 0 (shown for
the committing write and for the in-range read). -/
theorem bitbuf_cursor_invariant :
    (∀ (s : bitbuf_state) (ops : List BitbufOp),
      bitbuf_state_inv s → bitbuf_state_inv (bitbuf_run s ops)) ∧
    (∀ (buffer : bitbuf_buffer_t) (d n : Nat),
      buffer.write.bits_into_seg < 64 →
      buffer.write.bits_into_seg + n = 64 →
      (n : Int) ≤ bitbuf__remaining_capacity_in_bits buffer →
      (bitbuf__write_bits buffer d n).write.seg = buffer.write.seg + 1 ∧
      (bitbuf__write_bits buffer d n).write.bits_into_seg = 0) ∧
    (∀ (buffer : bitbuf_buffer_t) (cur : bitbuf_cursor_t) (n : Nat),
      cur.bits_into_seg < 64 →
      cur.bits_into_seg + n = 64 →
      (n : Int) ≤ bitbuf__bits_remaining_for_cursor buffer cur →
      (bitbuf__read_bits buffer cur n).2.seg = cur.seg + 1 ∧
      (bitbuf__read_bits buffer cur n).2.bits_into_seg = 0) := by
  refine ⟨?_, ?_, ?_⟩
  · intro s ops
    induction ops generalizing s with
    | nil => intro h; exact h
    | cons op rest ih => intro h; exact ih _ (bitbuf_step_inv s op h)
  · intro buffer d n hb hfull hcap
    unfold bitbuf__write_bits
    unfold bitbuf__write_bits_fuel
    dsimp only [BITBUF__SEG_BITS, bitbuf__advance_cursor]
    rw [if_neg (by omega : ¬ n > 64), if_neg (not_lt.mpr hcap),
      if_pos (by omega : n ≤ 64 - buffer.write.bits_into_seg)]
    rw [if_pos hfull]
    exact ⟨rfl, rfl⟩
  · intro buffer cur n hb hfull hcap
    unfold bitbuf__read_bits
    dsimp only [BITBUF__SEG_BITS, bitbuf__advance_cursor]
    rw [if_neg (by omega : ¬ n > 64), if_neg (not_lt.mpr hcap),
      if_pos (by omega : n ≤ 64 - cur.bits_into_seg)]
    rw [if_pos hfull]
    exact ⟨rfl, rfl⟩

/-- Witness for C9: a fresh one-segment buffer satisfies the invariant after a
7-bit write and a cursor creation, and a full 64-bit write (or read of a frozen
buffer) advances the cursor from segment 0 to segment 1 with offset 0. -/
theorem bitbuf_cursor_invariant_witness :
    bitbuf_state_inv (bitbuf_run ⟨bitbuf_alloc_buffer 8, []⟩
      [.writeBits 5 7, .cursorInit, .readBits 0 7]) ∧
    ((bitbuf__write_bits (bitbuf_alloc_buffer 8) 77 64).write.seg = 0 + 1 ∧
      (bitbuf__write_bits (bitbuf_alloc_buffer 8) 77 64).write.bits_into_seg = 0) ∧
    ((bitbuf__read_bits (bitbuf_alloc_buffer 8) ⟨0, 0, true, false⟩ 64).2.seg = 0 + 1 ∧
      (bitbuf__read_bits (bitbuf_alloc_buffer 8) ⟨0, 0, true, false⟩ 64).2.bits_into_seg = 0) := by
  refine ⟨?_, ?_, ?_⟩
  · apply bitbuf_cursor_invariant.1
    constructor
    · norm_num [bitbuf_alloc_buffer]
    · intro c hmem; simp at hmem
  · exact bitbuf_cursor_invariant.2.1 (bitbuf_alloc_buffer 8) 77 64 (by norm_num
      [bitbuf_alloc_buffer, BITBUF__ALIGN_UP]) (by norm_num [bitbuf_alloc_buffer,
      BITBUF__ALIGN_UP]) (by decide)
  · exact bitbuf_cursor_invariant.2.2 (bitbuf_alloc_buffer 8) ⟨0, 0, true, false⟩ 64
      (by norm_num) (by norm_num) (by decide)

/-! ## BITBUF: N-bit round trip (C1) -/

lemma getD_set_self (l : List Nat) (i a : Nat) (h : i < l.length) :
    (l.set i a).getD i 0 = a := by
  rw [List.getD_eq_getElem?_getD, List.getElem?_set_self h]
  rfl

lemma getD_set_ne (l : List Nat) (i j a : Nat) (h : i ≠ j) :
    (l.set i a).getD j 0 = l.getD j 0 := by
  rw [List.getD_eq_getElem?_getD, List.getElem?_set_ne h, ← List.getD_eq_getElem?_getD]

lemma shl_lt {v n : Nat} (b : Nat) (hv : v < 2 ^ n) (h : n + b ≤ 64) :
    v <<< b < 2 ^ 64 := by
  rw [Nat.shiftLeft_eq]
  calc v * 2 ^ b < 2 ^ n * 2 ^ b := by
        exact (Nat.mul_lt_mul_right (Nat.two_pow_pos b)).mpr hv
    _ = 2 ^ (n + b) := (pow_add 2 n b).symm
    _ ≤ 2 ^ 64 := Nat.pow_le_pow_right (by norm_num) h

lemma shr_lt {v n : Nat} (R : Nat) (hv : v < 2 ^ n) (hR : R ≤ n) :
    v >>> R < 2 ^ (n - R) := by
  rw [Nat.shiftRight_eq_div_pow]
  apply Nat.div_lt_of_lt_mul
  calc v < 2 ^ n := hv
    _ = 2 ^ R * 2 ^ (n - R) := by rw [← pow_add]; congr 1; omega

lemma and_mask_of_le {v n : Nat} (hv : v ≤ 2 ^ n - 1) : v &&& (2 ^ n - 1) = v :=
  Nat.and_pow_two_sub_one_of_lt_two_pow (by have := Nat.two_pow_pos n; omega)

/-- Reading back bits just OR-ed into the clean high part of a segment: if the
segment value `d` is zero at bit `b` and above, OR-ing in `v <<< b` and masking
the `n` bits at offset `b` recovers `v`. -/
lemma fit_roundtrip {d v : Nat} (b n : Nat) (hd : d < 2 ^ b) (hv : v < 2 ^ n)
    (hbn : b + n ≤ 64) :
    ((d ||| (v <<< b) % 2 ^ 64) &&& ((2 ^ n - 1) <<< b) % 2 ^ 64) >>> b = v := by
  rw [Nat.mod_eq_of_lt (shl_lt b hv (by omega)),
    Nat.mod_eq_of_lt (shl_lt b (by have := Nat.two_pow_pos n; omega : (2:Nat) ^ n - 1 < 2 ^ n)
      (by omega))]
  apply Nat.eq_of_testBit_eq
  intro i
  simp only [Nat.testBit_shiftRight, Nat.testBit_and, Nat.testBit_or, Nat.testBit_shiftLeft,
    Nat.testBit_two_pow_sub_one, ge_iff_le, Nat.add_sub_cancel_left]
  by_cases hi : i < n
  · have hdbit : d.testBit (b + i) = false :=
      Nat.testBit_lt_two_pow (lt_of_lt_of_le hd (Nat.pow_le_pow_right (by norm_num) (by omega)))
    simp [hdbit, hi]
  · have hvbit : v.testBit i = false :=
      Nat.testBit_lt_two_pow (lt_of_lt_of_le hv (Nat.pow_le_pow_right (by norm_num) (by omega)))
    simp [hvbit, hi]

lemma and_shift_mask (v m R : Nat) : (v &&& (m <<< R)) >>> R = (v >>> R) &&& m := by
  apply Nat.eq_of_testBit_eq
  intro i
  simp [Nat.testBit_shiftRight, Nat.testBit_and, Nat.testBit_shiftLeft,
    Nat.add_sub_cancel_left]

lemma low_or_high (v R : Nat) : (v &&& (2 ^ R - 1)) ||| ((v >>> R) <<< R) = v := by
  apply Nat.eq_of_testBit_eq
  intro i
  simp only [Nat.testBit_or, Nat.testBit_and, Nat.testBit_two_pow_sub_one,
    Nat.testBit_shiftLeft, Nat.testBit_shiftRight, ge_iff_le]
  by_cases hi : i < R
  · have h2 : ¬ R ≤ i := by omega
    simp [hi, h2]
  · have hR : R ≤ i := by omega
    have h3 : R + (i - R) = i := by omega
    simp [hi, hR, h3]

lemma bitbuf__write_bits_fuel_capacity (fuel : Nat) :
    ∀ (buffer : bitbuf_buffer_t) (d n : Nat),
      (bitbuf__write_bits_fuel fuel buffer d n).capacity_bytes = buffer.capacity_bytes := by
  induction fuel with
  | zero => intro buffer d n; rfl
  | succ fuel ih =>
    intro buffer d n
    unfold bitbuf__write_bits_fuel
    dsimp only
    split
    · rfl
    · split
      · rfl
      · split
        · split
          · rfl
          · rfl
        · exact ih _ _ _

/-- Result of a committing write that fits in the current segment. -/
lemma bitbuf__write_bits_fuel_fit (fuel : Nat) (buffer : bitbuf_buffer_t) (v n : Nat)
    (hn : n ≤ 64)
    (hcap : (n : Int) ≤ bitbuf__remaining_capacity_in_bits buffer)
    (hfit : n ≤ 64 - buffer.write.bits_into_seg) :
    (bitbuf__write_bits_fuel (fuel + 1) buffer v n).data =
      buffer.data.set buffer.write.seg
        ((buffer.data.getD buffer.write.seg 0) |||
          ((v &&& (2 ^ n - 1)) <<< buffer.write.bits_into_seg) % 2 ^ 64) := by
  unfold bitbuf__write_bits_fuel
  dsimp only [BITBUF__SEG_BITS, bitbuf__advance_cursor, bitbuf__spanmasktable]
  rw [if_neg (by omega : ¬ n > 64), if_neg (not_lt.mpr hcap), if_pos hfit]
  split
  · rfl
  · rfl

/-- Result of a committing write that straddles the segment boundary: the low
`64 - b` bits land in the high part of the current segment, the remaining
`n - (64 - b)` bits in the low part of the next one. -/
lemma bitbuf__write_bits_fuel_straddle (fuel : Nat) (buffer : bitbuf_buffer_t) (v n : Nat)
    (hb : buffer.write.bits_into_seg < 64)
    (hn : n ≤ 64)
    (hcap : (n : Int) ≤ bitbuf__remaining_capacity_in_bits buffer)
    (hstr : ¬ n ≤ 64 - buffer.write.bits_into_seg) :
    (bitbuf__write_bits_fuel (fuel + 2) buffer v n).data =
      (buffer.data.set buffer.write.seg
        ((buffer.data.getD buffer.write.seg 0) |||
          ((v &&& (2 ^ (64 - buffer.write.bits_into_seg) - 1)) <<<
            buffer.write.bits_into_seg) % 2 ^ 64)).set (buffer.write.seg + 1)
        ((buffer.data.getD (buffer.write.seg + 1) 0) |||
          ((v >>> (64 - buffer.write.bits_into_seg)) &&&
            (2 ^ (n - (64 - buffer.write.bits_into_seg)) - 1))) := by
  have hR1 : 1 ≤ 64 - buffer.write.bits_into_seg := by omega
  have hRn : 64 - buffer.write.bits_into_seg ≤ n := by omega
  conv_lhs => rw [show fuel + 2 = (fuel + 1) + 1 from rfl]
  unfold bitbuf__write_bits_fuel
  dsimp only [BITBUF__SEG_BITS, bitbuf__advance_cursor, bitbuf__spanmasktable]
  rw [if_neg (by omega : ¬ n > 64), if_neg (not_lt.mpr hcap), if_neg hstr]
  rw [show 64 - (64 - buffer.write.bits_into_seg) = buffer.write.bits_into_seg by omega]
  rw [bitbuf__write_bits_fuel_fit fuel _ _ _ (by omega)
    (by
      unfold bitbuf__remaining_capacity_in_bits at hcap ⊢
      dsimp only [BITBUF__SEG_BITS] at hcap ⊢
      push_cast at hcap ⊢
      omega)
    (by dsimp only; omega)]
  dsimp only
  congr 1
  rw [getD_set_ne _ _ _ _ (by omega)]
  congr 1
  rw [Nat.shiftLeft_zero]
  have hmlt : (2 : Nat) ^ (n - (64 - buffer.write.bits_into_seg)) - 1 < 2 ^ 64 := by
    have h1 := Nat.two_pow_pos (n - (64 - buffer.write.bits_into_seg))
    have h2 : (2 : Nat) ^ (n - (64 - buffer.write.bits_into_seg)) ≤ 2 ^ 64 :=
      Nat.pow_le_pow_right (by norm_num) (by omega)
    omega
  rw [Nat.mod_eq_of_lt (lt_of_le_of_lt Nat.and_le_right hmlt)]
  rw [Nat.mod_eq_of_lt (shl_lt _ (by have := Nat.two_pow_pos (n - (64 - buffer.write.bits_into_seg)); omega)
    (by omega : (n - (64 - buffer.write.bits_into_seg)) + (64 - buffer.write.bits_into_seg) ≤ 64))]
  rw [and_shift_mask]
  rw [Nat.and_assoc, Nat.and_self]

/-- Value returned by a read that fits in the current segment. -/
lemma bitbuf__read_bits_fit (buffer : bitbuf_buffer_t) (cur : bitbuf_cursor_t) (n : Nat)
    (hn : n ≤ 64)
    (hcap : (n : Int) ≤ bitbuf__bits_remaining_for_cursor buffer cur)
    (hfit : n ≤ 64 - cur.bits_into_seg) :
    (bitbuf__read_bits buffer cur n).1 =
      ((buffer.data.getD cur.seg 0) &&&
        ((2 ^ n - 1) <<< cur.bits_into_seg) % 2 ^ 64) >>> cur.bits_into_seg := by
  unfold bitbuf__read_bits
  dsimp only [BITBUF__SEG_BITS, bitbuf__advance_cursor, bitbuf__spanmasktable]
  rw [if_neg (by omega : ¬ n > 64), if_neg (not_lt.mpr hcap), if_pos hfit]
  split
  · rfl
  · rfl

/-- Value returned by a read that straddles the segment boundary. -/
lemma bitbuf__read_bits_straddle (buffer : bitbuf_buffer_t) (cur : bitbuf_cursor_t) (n : Nat)
    (hb : cur.bits_into_seg < 64)
    (hn : n ≤ 64)
    (hcap : (n : Int) ≤ bitbuf__bits_remaining_for_cursor buffer cur)
    (hstr : ¬ n ≤ 64 - cur.bits_into_seg) :
    (bitbuf__read_bits buffer cur n).1 =
      (((buffer.data.getD cur.seg 0) &&&
          ((2 ^ (64 - cur.bits_into_seg) - 1) <<< cur.bits_into_seg) % 2 ^ 64) >>>
        cur.bits_into_seg) |||
      (((buffer.data.getD (cur.seg + 1) 0) &&& (2 ^ (n - (64 - cur.bits_into_seg)) - 1)) <<<
        (64 - cur.bits_into_seg)) % 2 ^ 64 := by
  unfold bitbuf__read_bits
  dsimp only [BITBUF__SEG_BITS, bitbuf__advance_cursor, bitbuf__spanmasktable]
  rw [if_neg (by omega : ¬ n > 64), if_neg (not_lt.mpr hcap), if_neg hstr]
  rw [show 64 - (64 - cur.bits_into_seg) = cur.bits_into_seg by omega]

/-- Well-formedness of a writable buffer: the capacity matches the segment
list, the write offset is in range, and every bit at or beyond the write
position is still zero (true of any buffer produced by allocation followed by
committed writes). -/
def bitbuf_wf (buffer : bitbuf_buffer_t) : Prop :=
  buffer.capacity_bytes = buffer.data.length * 8 ∧
  buffer.write.bits_into_seg < 64 ∧
  buffer.data.getD buffer.write.seg 0 < 2 ^ buffer.write.bits_into_seg ∧
  ∀ j, buffer.write.seg < j → j < buffer.data.length → buffer.data.getD j 0 = 0

/-- Buffers straight from `bitbuf_alloc_buffer` are well-formed; committed
writes keep all bits at or past the cursor zero, so the invariant persists. -/
lemma bitbuf_alloc_buffer_wf (m : Nat) : bitbuf_wf (bitbuf_alloc_buffer m) := by
  have hrep : ∀ j k, (List.replicate k (0 : Nat)).getD j 0 = 0 := by
    intro j k
    rw [List.getD_eq_getElem?_getD, List.getElem?_replicate]
    split <;> rfl
  unfold bitbuf_wf bitbuf_alloc_buffer BITBUF__ALIGN_UP
  refine ⟨?_, by norm_num, ?_, ?_⟩
  · simp only [List.length_replicate]
    omega
  · rw [hrep]
    norm_num
  · intro j h1 h2
    exact hrep j _

/-- C1: for every N in [1, 64] and every value v ≤ mask[N], writing v as N bits
into a well-formed buffer with at least N bits of remaining capacity and then
reading N bits from a cursor positioned at the same bit offset returns exactly
v, including when the N bits straddle a 64-bit segment boundary. -/
theorem bitbuf_nbit_roundtrip (buffer : bitbuf_buffer_t) (n v : Nat)
    (hwf : bitbuf_wf buffer) (hn1 : 1 ≤ n) (hn64 : n ≤ 64)
    (hv : v ≤ bitbuf__spanmasktable n)
    (hcap : (n : Int) ≤ bitbuf__remaining_capacity_in_bits buffer) :
    (bitbuf__read_bits (bitbuf__write_bits buffer v n)
      ⟨buffer.write.seg, buffer.write.bits_into_seg, true, false⟩ n).1 = v := by
  obtain ⟨hcapeq, hb, hd, hzero⟩ := hwf
  have hvlt : v < 2 ^ n := by
    have := Nat.two_pow_pos n
    simp only [bitbuf__spanmasktable] at hv
    omega
  have hcapN : buffer.write.seg * 64 + buffer.write.bits_into_seg + n ≤
      buffer.data.length * 64 := by
    unfold bitbuf__remaining_capacity_in_bits at hcap
    dsimp only [BITBUF__SEG_BITS] at hcap
    rw [hcapeq] at hcap
    push_cast at hcap
    omega
  have hslen : buffer.write.seg < buffer.data.length := by omega
  have hcapR : (n : Int) ≤ bitbuf__bits_remaining_for_cursor
      (bitbuf__write_bits buffer v n)
      ⟨buffer.write.seg, buffer.write.bits_into_seg, true, false⟩ := by
    unfold bitbuf__bits_remaining_for_cursor
    dsimp only [BITBUF__SEG_BITS]
    rw [bitbuf__write_bits, bitbuf__write_bits_fuel_capacity, hcapeq]
    rw [show buffer.data.length * 8 / 8 = buffer.data.length from by omega]
    push_cast
    nlinarith [hcapN, hslen, hb, hn64]
  by_cases hfit : n ≤ 64 - buffer.write.bits_into_seg
  · rw [bitbuf__read_bits_fit _ _ _ hn64 hcapR (by dsimp only; exact hfit)]
    dsimp only
    rw [bitbuf__write_bits, bitbuf__write_bits_fuel_fit n _ _ _ hn64 hcap hfit]
    rw [getD_set_self _ _ _ hslen]
    rw [and_mask_of_le (by simpa [bitbuf__spanmasktable] using hv)]
    exact fit_roundtrip _ _ hd hvlt (by omega)
  · have hs1len : buffer.write.seg + 1 < buffer.data.length := by omega
    have hnext : buffer.data.getD (buffer.write.seg + 1) 0 = 0 :=
      hzero _ (by omega) hs1len
    rw [bitbuf__read_bits_straddle _ _ _ (by dsimp only; exact hb) hn64 hcapR
      (by dsimp only; exact hfit)]
    dsimp only
    rw [bitbuf__write_bits, show n + 1 = (n - 2) + 1 + 2 from by omega,
      bitbuf__write_bits_fuel_straddle _ _ _ _ hb hn64 hcap hfit]
    rw [hnext, Nat.zero_or]
    have hshr : v >>> (64 - buffer.write.bits_into_seg) &&&
        (2 ^ (n - (64 - buffer.write.bits_into_seg)) - 1) =
          v >>> (64 - buffer.write.bits_into_seg) :=
      and_mask_of_le (by
        have := shr_lt (64 - buffer.write.bits_into_seg) hvlt (by omega)
        omega)
    rw [hshr]
    rw [getD_set_ne _ _ _ _ (by omega),
      getD_set_self _ _ _ hslen,
      getD_set_self _ _ _ (by simpa using hs1len)]
    rw [fit_roundtrip _ _ hd (by
        have := Nat.two_pow_pos (64 - buffer.write.bits_into_seg)
        exact lt_of_le_of_lt Nat.and_le_right (by omega)) (by omega)]
    rw [hshr]
    have hdrop : (v >>> (64 - buffer.write.bits_into_seg)) <<<
        (64 - buffer.write.bits_into_seg) < 2 ^ 64 := by
      calc (v >>> (64 - buffer.write.bits_into_seg)) <<<
            (64 - buffer.write.bits_into_seg) ≤ v := by
            rw [Nat.shiftLeft_eq, Nat.shiftRight_eq_div_pow]
            exact Nat.div_mul_le_self v _
        _ < 2 ^ n := hvlt
        _ ≤ 2 ^ 64 := Nat.pow_le_pow_right (by norm_num) hn64
    rw [Nat.mod_eq_of_lt hdrop]
    exact low_or_high v _

/-- Witness for C1: an 8-bit value written at bit offset 60 of a two-segment
buffer straddles the segment boundary and reads back exactly. -/
theorem bitbuf_nbit_roundtrip_witness :
    (bitbuf__read_bits
      (bitbuf__write_bits ⟨[0, 0], 16, false, ⟨0, 60, false, false⟩⟩ 171 8)
      ⟨0, 60, true, false⟩ 8).1 = 171 := by
  have h := bitbuf_nbit_roundtrip ⟨[0, 0], 16, false, ⟨0, 60, false, false⟩⟩ 8 171
    (by
      refine ⟨by norm_num, by norm_num, by norm_num, ?_⟩
      intro j h1 h2
      have hj : j = 1 := by simp at h1 h2; omega
      subst hj
      rfl)
    (by norm_num) (by norm_num) (by norm_num [bitbuf__spanmasktable]) (by decide)
  simpa using h

/-! ## B89: escape scan (scan_string_seg) and iterator -/

def ST_64BIT : Nat := 0x0303030303030303

def HAS_ZERO_SUB : Nat := 0x0101010101010101

def HAS_ZERO_HIGH : Nat := 0x8080808080808080

/-- Fuel-bounded count-trailing-zeros; `ctz` below fixes fuel 64, enough for any
nonzero 64-bit value (`__builtin_ctzll` has undefined behaviour on 0; the model
returns 0 there). -/
def ctz_fuel : Nat → Nat → Nat
  | 0, _ => 0
  | fuel + 1, n => if n % 2 = 1 then 0 else if n = 0 then 0 else 1 + ctz_fuel fuel (n / 2)

def ctz (n : Nat) : Nat := ctz_fuel 64 n

/-- Embedding of `get_first_match_index` (ftg_base89.h:257-262):
`__builtin_ctzll(has_match) / 8`. -/
def get_first_match_index (has_match : Nat) : Nat := ctz has_match / 8

/-- Embedding of the byte-by-byte tail loop of `scan_string_seg`
(ftg_base89.h:323-332), which is also the naive reference scan: offset of the
first `B89_ST` byte, or the length when there is none. -/
def scan_tail : List Nat → Nat
  | [] => 0
  | b :: rest => if b = B89_ST then 0 else 1 + scan_tail rest

/-- Embedding of `scan_string_seg` (ftg_base89.h:291-333) operating on the byte
range `[in, end)` as a list; returns how far the pointer advances.  While at
least 8 bytes remain, an unaligned little-endian 64-bit load is XORed with the
replicated escape byte and the classic has-zero-byte test
`(diff - 0x0101..) & ~diff & 0x8080..` is evaluated in wrapping 64-bit
arithmetic; otherwise the tail loop finishes byte-by-byte. -/
def scan_string_seg : List Nat → Nat
  | b0 :: b1 :: b2 :: b3 :: b4 :: b5 :: b6 :: b7 :: rest =>
    let qword := wordOfBytes [b0, b1, b2, b3, b4, b5, b6, b7]
    let diff := qword ^^^ ST_64BIT
    let has_match := ((diff + 2 ^ 64 - HAS_ZERO_SUB) % 2 ^ 64) &&&
      (diff ^^^ (2 ^ 64 - 1)) &&& HAS_ZERO_HIGH
    if has_match ≠ 0 then get_first_match_index has_match
    else 8 + scan_string_seg rest
  | bytes => scan_tail bytes

inductive b89_event_type_t
  | text
  | code
deriving Repr, DecidableEq

/-- The C `b89_event_t` union flattened into a record: `text_ptr` (an offset
into the input), `text_len` and `code_index` model the two union variants; only
the fields of the active variant (per `type`) carry meaning. -/
structure b89_event_t where
  type : b89_event_type_t
  text_ptr : Nat
  text_len : Nat
  code_index : Nat
deriving Repr, DecidableEq

/-- Iterator state: `bytes` is the input range `[str, end)`; `pos` is the
current offset (the C `pos` pointer minus `str`). -/
structure b89_iter_t where
  bytes : List Nat
  pos : Nat
  max_index : Nat
  event : b89_event_t
deriving Repr, DecidableEq

/-- Embedding of `b89_iter_init` (ftg_base89.h:193-202); the C leaves `event`
uninitialized, the model zero-fills it. -/
def b89_iter_init (str : List Nat) (max_index : Nat) : b89_iter_t :=
  { bytes := str, pos := 0, max_index := max_index, event := ⟨.text, 0, 0, 0⟩ }

/-- Embedding of `b89_iter_next` (ftg_base89.h:365-407); returns the C `int`
result (1: event produced, 0: iteration over) with the updated iterator. -/
def b89_iter_next (it : b89_iter_t) : Nat × b89_iter_t :=
  if it.pos ≥ it.bytes.length then (0, it)
  else
    let unemitted_seg := it.pos
    let pos1 := it.pos + scan_string_seg (it.bytes.drop it.pos)
    if unemitted_seg ≠ pos1 then
      (1, { it with
            pos := pos1,
            event := ⟨.text, unemitted_seg, pos1 - unemitted_seg, it.event.code_index⟩ })
    else if it.bytes.getD pos1 0 = B89_ST then
      if it.bytes.length - pos1 < 4 then
        (0, { it with
              pos := it.bytes.length,
              event := ⟨.code, it.event.text_ptr, it.event.text_len, B89_ERROR_INDEX⟩ })
      else
        (1, { it with
              pos := pos1 + 4,
              event := ⟨.code, it.event.text_ptr, it.event.text_len,
                decode_base89 (wordOfBytes ((it.bytes.drop pos1).take 4)) it.max_index⟩ })
    else (0, it)

/-! ## B89: truncated trailing code (C7) -/

/-- C7: when `b89_iter_next` finds the escape byte at the current position with
fewer than 4 bytes remaining, it emits no event — it returns 0, terminating
iteration — and sets the position to the end of the input. -/
theorem b89_iter_truncated_code (it : b89_iter_t)
    (h1 : it.pos < it.bytes.length)
    (h2 : it.bytes.getD it.pos 0 = 0x03)
    (h3 : it.bytes.length - it.pos < 4) :
    (b89_iter_next it).1 = 0 ∧ (b89_iter_next it).2.pos = it.bytes.length := by
  have hdroplen : (it.bytes.drop it.pos).length = it.bytes.length - it.pos := by
    simp
  have hdrop : it.bytes.drop it.pos =
      it.bytes.getD it.pos 0 :: it.bytes.drop (it.pos + 1) := by
    rw [List.getD_eq_getElem?_getD, List.getElem?_eq_getElem h1]
    exact List.drop_eq_getElem_cons h1
  have hscan : scan_string_seg (it.bytes.drop it.pos) = 0 := by
    rw [hdrop, h2]
    have hlen2 : (it.bytes.drop (it.pos + 1)).length < 7 := by
      simp only [List.length_drop]
      omega
    match hE : it.bytes.drop (it.pos + 1), hlen2 with
    | [], _ => rfl
    | [a], _ => simp [scan_string_seg, scan_tail, B89_ST]
    | [a, b], _ => simp [scan_string_seg, scan_tail, B89_ST]
    | [a, b, c], _ => simp [scan_string_seg, scan_tail, B89_ST]
    | [a, b, c, d], _ => simp [scan_string_seg, scan_tail, B89_ST]
    | [a, b, c, d, e], _ => simp [scan_string_seg, scan_tail, B89_ST]
    | [a, b, c, d, e, f], _ => simp [scan_string_seg, scan_tail, B89_ST]
  unfold b89_iter_next
  rw [if_neg (by omega : ¬ it.pos ≥ it.bytes.length)]
  dsimp only
  rw [hscan]
  simp only [Nat.add_zero]
  rw [if_neg (by omega : ¬ it.pos ≠ it.pos),
    if_pos (show it.bytes.getD it.pos 0 = B89_ST from h2), if_pos h3]
  exact ⟨rfl, rfl⟩

/-- Witness for C7: input consisting of a lone escape byte followed by one
digit byte; the escape is found at position 0 with only 2 bytes remaining. -/
theorem b89_iter_truncated_code_witness :
    ((b89_iter_next ⟨[0x03, 0x40], 0, 100, ⟨.text, 0, 0, 0⟩⟩).1 = 0 ∧
      (b89_iter_next ⟨[0x03, 0x40], 0, 100, ⟨.text, 0, 0, 0⟩⟩).2.pos = 2) := by
  have h := b89_iter_truncated_code ⟨[0x03, 0x40], 0, 100, ⟨.text, 0, 0, 0⟩⟩
    (by norm_num) (by norm_num) (by norm_num)
  simpa using h

/-! ## B89: SWAR has-zero-byte analysis (towards C6)

The word-parallel scan is analysed byte by byte: `repByte c k` is the constant
with byte `c` replicated `k` times, and `hz_word ds` is the has-zero-byte
expression `(X - 0x0101..) & ~X & 0x8080..` (in wrapping `8*k`-bit arithmetic)
of the word `X` whose little-endian bytes are `ds`. -/

def repByte (c : Nat) : Nat → Nat
  | 0 => 0
  | k + 1 => c + 256 * repByte c k

def hz_word (ds : List Nat) : Nat :=
  ((wordOfBytes ds + 2 ^ (8 * ds.length) - repByte 1 ds.length) % 2 ^ (8 * ds.length)) &&&
    (wordOfBytes ds ^^^ (2 ^ (8 * ds.length) - 1)) &&& repByte 0x80 ds.length

lemma repByte_lt (c k : Nat) (hc : c < 256) : repByte c k < 2 ^ (8 * k) := by
  induction k with
  | zero => simp [repByte]
  | succ k ih =>
    have hpow : (2 : Nat) ^ (8 * (k + 1)) = 2 ^ (8 * k) * 256 := by
      rw [show 8 * (k + 1) = 8 * k + 8 by ring, pow_add]
      norm_num
    simp only [repByte]
    omega

lemma wordOfBytes_lt (bs : List Nat) (h : ∀ b ∈ bs, b < 256) :
    wordOfBytes bs < 2 ^ (8 * bs.length) := by
  induction bs with
  | nil => simp [wordOfBytes]
  | cons b rest ih =>
    have hpow : (2 : Nat) ^ (8 * (rest.length + 1)) = 2 ^ (8 * rest.length) * 256 := by
      rw [show 8 * (rest.length + 1) = 8 * rest.length + 8 by ring, pow_add]
      norm_num
    have hb : b < 256 := h b (List.mem_cons_self b rest)
    have hY := ih (fun x hx => h x (List.mem_cons_of_mem b hx))
    simp only [wordOfBytes, List.length_cons]
    omega

lemma testBit_byte (a x j : Nat) (ha : a < 256) :
    (a + 256 * x).testBit j = if j < 8 then a.testBit j else x.testBit (j - 8) := by
  have e : a + 256 * x = 2 ^ 8 * x + a := by ring
  have ha8 : a < 2 ^ 8 := by norm_num; omega
  rw [e, Nat.testBit_mul_pow_two_add x ha8 j]

lemma and_byte (a b x y : Nat) (ha : a < 256) (hb : b < 256) :
    (a + 256 * x) &&& (b + 256 * y) = (a &&& b) + 256 * (x &&& y) := by
  have hab : a &&& b < 256 := lt_of_le_of_lt Nat.and_le_left ha
  apply Nat.eq_of_testBit_eq
  intro j
  rw [Nat.testBit_and, testBit_byte _ _ _ ha, testBit_byte _ _ _ hb,
    testBit_byte _ _ _ hab]
  by_cases hj : j < 8 <;> simp [hj, Nat.testBit_and]

lemma xor_byte (a b x y : Nat) (ha : a < 256) (hb : b < 256) :
    (a + 256 * x) ^^^ (b + 256 * y) = (a ^^^ b) + 256 * (x ^^^ y) := by
  have hab : a ^^^ b < 256 := by
    have : (256 : Nat) = 2 ^ 8 := by norm_num
    rw [this] at ha hb ⊢
    exact Nat.xor_lt_two_pow ha hb
  apply Nat.eq_of_testBit_eq
  intro j
  rw [Nat.testBit_xor, testBit_byte _ _ _ ha, testBit_byte _ _ _ hb,
    testBit_byte _ _ _ hab]
  by_cases hj : j < 8 <;> simp [hj, Nat.testBit_xor]

lemma byte_mod (a Z M : Nat) (ha : a < 256) (hM : 0 < M) :
    (a + 256 * Z) % (256 * M) = a + 256 * (Z % M) := by
  have h1 : (256 * Z) % (256 * M) = 256 * (Z % M) := Nat.mul_mod_mul_left 256 Z M
  have h2 : a + 256 * (Z % M) < 256 * M := by
    have := Nat.mod_lt Z hM
    omega
  calc (a + 256 * Z) % (256 * M)
      = (a % (256 * M) + (256 * Z) % (256 * M)) % (256 * M) := by rw [Nat.add_mod]
    _ = (a + 256 * (Z % M)) % (256 * M) := by
        rw [h1, Nat.mod_eq_of_lt (by omega : a < 256 * M)]
    _ = a + 256 * (Z % M) := Nat.mod_eq_of_lt h2

lemma wordOfBytes_xor_rep (c : Nat) (hc : c < 256) (bs : List Nat)
    (h : ∀ b ∈ bs, b < 256) :
    wordOfBytes bs ^^^ repByte c bs.length =
      wordOfBytes (bs.map (fun b => b ^^^ c)) := by
  induction bs with
  | nil => simp [wordOfBytes, repByte]
  | cons b rest ih =>
    have hb : b < 256 := h b (List.mem_cons_self b rest)
    simp only [wordOfBytes, repByte, List.map_cons, List.length_cons]
    rw [xor_byte _ _ _ _ hb hc, ih (fun x hx => h x (List.mem_cons_of_mem b hx))]

/-- The has-zero byte test on a word whose leading (least-significant) byte is
nonzero: the low result byte is `((d-1) & ~d & 0x80)` and the rest is the test
of the remaining bytes (no borrow propagates past a nonzero byte). -/
lemma hz_word_cons_nz (d : Nat) (rest : List Nat) (hd : d < 256) (hdnz : d ≠ 0)
    (_h256 : ∀ b ∈ rest, b < 256) :
    hz_word (d :: rest) = (((d - 1) &&& (d ^^^ 255)) &&& 128) + 256 * hz_word rest := by
  have hL := repByte_lt 1 rest.length (by norm_num)
  have hM := Nat.two_pow_pos (8 * rest.length)
  have hpow : (2 : Nat) ^ (8 * (rest.length + 1)) = 256 * 2 ^ (8 * rest.length) := by
    rw [show 8 * (rest.length + 1) = 8 * rest.length + 8 by ring, pow_add]
    ring_nf
  unfold hz_word
  simp only [wordOfBytes, repByte, List.length_cons]
  rw [hpow]
  have hsub : d + 256 * wordOfBytes rest + 256 * 2 ^ (8 * rest.length) -
      (1 + 256 * repByte 1 rest.length) =
      (d - 1) + 256 * (wordOfBytes rest + 2 ^ (8 * rest.length) - repByte 1 rest.length) := by
    omega
  rw [hsub, byte_mod _ _ _ (by omega) hM]
  have hall : 256 * 2 ^ (8 * rest.length) - 1 = 255 + 256 * (2 ^ (8 * rest.length) - 1) := by
    omega
  rw [hall, xor_byte _ _ _ _ hd (by norm_num)]
  rw [and_byte _ _ _ _ (by omega) (by
    have : (255 : Nat) = 2 ^ 8 - 1 := by norm_num
    have h8 : d ^^^ 255 < 256 := by
      have h2 : (256 : Nat) = 2 ^ 8 := by norm_num
      rw [h2]
      exact Nat.xor_lt_two_pow (by omega) (by norm_num)
    exact h8)]
  rw [show (0x80 : Nat) + 256 * repByte 0x80 rest.length =
    128 + 256 * repByte 0x80 rest.length from rfl]
  rw [and_byte _ _ _ _ (lt_of_le_of_lt Nat.and_le_left (by omega)) (by norm_num)]

/-- The has-zero byte test on a word whose leading byte is zero: the low result
byte is `0x80` (the borrow makes the subtraction byte `0xFF`, and `~0 = 0xFF`
keeps the high bit). -/
lemma hz_word_cons_zero (rest : List Nat) (_h256 : ∀ b ∈ rest, b < 256) :
    ∃ W, hz_word (0 :: rest) = 128 + 256 * W := by
  have hL := repByte_lt 1 rest.length (by norm_num)
  have hM := Nat.two_pow_pos (8 * rest.length)
  have hpow : (2 : Nat) ^ (8 * (rest.length + 1)) = 256 * 2 ^ (8 * rest.length) := by
    rw [show 8 * (rest.length + 1) = 8 * rest.length + 8 by ring, pow_add]
    ring_nf
  refine ⟨((wordOfBytes rest + 2 ^ (8 * rest.length) - repByte 1 rest.length - 1) %
      2 ^ (8 * rest.length)) &&&
      (wordOfBytes rest ^^^ (2 ^ (8 * rest.length) - 1)) &&& repByte 0x80 rest.length, ?_⟩
  unfold hz_word
  simp only [wordOfBytes, repByte, List.length_cons]
  rw [hpow]
  have hsub : 0 + 256 * wordOfBytes rest + 256 * 2 ^ (8 * rest.length) -
      (1 + 256 * repByte 1 rest.length) =
      255 + 256 * (wordOfBytes rest + 2 ^ (8 * rest.length) - repByte 1 rest.length - 1) := by
    omega
  rw [hsub, byte_mod _ _ _ (by norm_num) hM]
  have hall : 256 * 2 ^ (8 * rest.length) - 1 = 255 + 256 * (2 ^ (8 * rest.length) - 1) := by
    omega
  rw [hall]
  rw [show (0 : Nat) + 256 * wordOfBytes rest = 0 + 256 * wordOfBytes rest from rfl,
    xor_byte 0 255 _ _ (by norm_num) (by norm_num)]
  rw [and_byte _ _ _ _ (by norm_num) (by norm_num)]
  rw [show (0x80 : Nat) + 256 * repByte 0x80 rest.length =
    128 + 256 * repByte 0x80 rest.length from rfl]
  rw [and_byte _ _ _ _ (by norm_num) (by norm_num)]
  congr 1

set_option maxRecDepth 4096 in
/-- Per-byte core of the classic trick: for a nonzero byte (with no borrow
coming in), `(d-1) & ~d & 0x80` is zero. -/
lemma hz_byte_nz : ∀ d : Nat, d < 256 → d ≠ 0 → ((d - 1) &&& (d ^^^ 255)) &&& 128 = 0 := by
  decide

lemma hz_word_zero (ds : List Nat) (h256 : ∀ d ∈ ds, d < 256)
    (hnz : ∀ d ∈ ds, d ≠ 0) : hz_word ds = 0 := by
  induction ds with
  | nil => simp [hz_word, repByte]
  | cons d rest ih =>
    have hd : d < 256 := h256 d (List.mem_cons_self d rest)
    have hdnz : d ≠ 0 := hnz d (List.mem_cons_self d rest)
    rw [hz_word_cons_nz d rest hd hdnz (fun x hx => h256 x (List.mem_cons_of_mem d hx))]
    rw [hz_byte_nz d hd hdnz, ih (fun x hx => h256 x (List.mem_cons_of_mem d hx))
      (fun x hx => hnz x (List.mem_cons_of_mem d hx))]

lemma hz_word_first (ds : List Nat) (h256 : ∀ d ∈ ds, d < 256) :
    ∀ i, i < ds.length → ds.getD i 0 = 0 → (∀ j, j < i → ds.getD j 0 ≠ 0) →
      (∀ t, t < 8 * i + 7 → (hz_word ds).testBit t = false) ∧
        (hz_word ds).testBit (8 * i + 7) = true := by
  induction ds with
  | nil => intro i hi; simp at hi
  | cons d rest ih =>
    intro i hi hzero hbefore
    rcases i with _ | i
    · have hd0 : d = 0 := by simpa using hzero
      subst hd0
      obtain ⟨W, hW⟩ := hz_word_cons_zero rest
        (fun x hx => h256 x (List.mem_cons_of_mem 0 hx))
      rw [hW]
      constructor
      · intro t ht
        rw [testBit_byte _ _ _ (by norm_num), if_pos (by omega : t < 8)]
        rw [show (128 : Nat) = 2 ^ 7 by norm_num, Nat.testBit_two_pow]
        simp
        omega
      · rw [testBit_byte _ _ _ (by norm_num), if_pos (by norm_num : 8 * 0 + 7 < 8)]
        rw [show (128 : Nat) = 2 ^ 7 by norm_num]
        exact Nat.testBit_two_pow_self
    · have hd : d < 256 := h256 d (List.mem_cons_self d rest)
      have hdnz : d ≠ 0 := by
        have := hbefore 0 (by omega)
        simpa using this
      rw [hz_word_cons_nz d rest hd hdnz (fun x hx => h256 x (List.mem_cons_of_mem d hx))]
      rw [hz_byte_nz d hd hdnz, Nat.zero_add]
      obtain ⟨ihlow, ihbit⟩ := ih (fun x hx => h256 x (List.mem_cons_of_mem d hx)) i
        (by simpa using hi) (by simpa using hzero)
        (fun j hj => by
          have := hbefore (j + 1) (by omega)
          simpa using this)
      have hmul : (256 : Nat) * hz_word rest = 2 ^ 8 * hz_word rest := by norm_num
      rw [hmul]
      constructor
      · intro t ht
        rw [Nat.testBit_mul_pow_two]
        by_cases h8 : 8 ≤ t
        · have hlow : (hz_word rest).testBit (t - 8) = false := ihlow (t - 8) (by omega)
          simp [h8, hlow]
        · simp [h8]
      · rw [Nat.testBit_mul_pow_two]
        have h8 : 8 ≤ 8 * (i + 1) + 7 := by omega
        have he : 8 * (i + 1) + 7 - 8 = 8 * i + 7 := by omega
        simp [h8, he, ihbit]

lemma ctz_fuel_eq (fuel : Nat) : ∀ (n m : Nat), m < fuel → n.testBit m = true →
    (∀ t, t < m → n.testBit t = false) → ctz_fuel fuel n = m := by
  induction fuel with
  | zero => intro n m hm _ _; exact absurd hm (Nat.not_lt_zero m)
  | succ f ih =>
    intro n m hm hbit hlow
    unfold ctz_fuel
    rcases Nat.eq_zero_or_pos m with hm0 | hmpos
    · subst hm0
      have h1 : n % 2 = 1 := by simpa using hbit
      rw [if_pos h1]
    · have h0 : n.testBit 0 = false := hlow 0 hmpos
      have hne1 : ¬ n % 2 = 1 := by simpa using h0
      have hne0 : n ≠ 0 := by
        intro h
        subst h
        simp at hbit
      rw [if_neg hne1, if_neg hne0]
      have hrec := ih (n / 2) (m - 1) (by omega)
        (by
          rw [Nat.testBit_div_two, show m - 1 + 1 = m from by omega]
          exact hbit)
        (fun t ht => by
          rw [Nat.testBit_div_two]
          exact hlow (t + 1) (by omega))
      omega

lemma getD_map_lt (f : Nat → Nat) (l : List Nat) (j : Nat) (h : j < l.length) :
    (l.map f).getD j 0 = f (l.getD j 0) := by
  rw [List.getD_eq_getElem?_getD, List.getD_eq_getElem?_getD, List.getElem?_map,
    List.getElem?_eq_getElem h]
  rfl

/-! ## B89: characterization of the byte-by-byte scan -/

lemma scan_tail_le (l : List Nat) : scan_tail l ≤ l.length := by
  induction l with
  | nil => simp [scan_tail]
  | cons b rest ih =>
    simp only [scan_tail, List.length_cons]
    split
    · omega
    · omega

lemma scan_tail_lt_of_mem (l : List Nat) (h : B89_ST ∈ l) : scan_tail l < l.length := by
  induction l with
  | nil => simp at h
  | cons b rest ih =>
    simp only [scan_tail, List.length_cons]
    split
    · omega
    · rename_i hne
      have hmem : B89_ST ∈ rest := by
        rcases List.mem_cons.mp h with h1 | h2
        · exact absurd h1.symm hne
        · exact h2
      have := ih hmem
      omega

lemma scan_tail_getD (l : List Nat) (h : scan_tail l < l.length) :
    l.getD (scan_tail l) 0 = B89_ST := by
  induction l with
  | nil => simp at h
  | cons b rest ih =>
    by_cases hb : b = B89_ST
    · simp [scan_tail, hb]
    · simp only [scan_tail, if_neg hb] at h ⊢
      rw [show 1 + scan_tail rest = scan_tail rest + 1 from by omega, List.getD_cons_succ]
      apply ih
      simp only [List.length_cons] at h
      omega

lemma scan_tail_before (l : List Nat) : ∀ j, j < scan_tail l → l.getD j 0 ≠ B89_ST := by
  induction l with
  | nil => intro j hj; simp [scan_tail] at hj
  | cons b rest ih =>
    intro j hj
    by_cases hb : b = B89_ST
    · simp [scan_tail, hb] at hj
    · simp only [scan_tail, if_neg hb] at hj
      rcases j with _ | j
      · simpa using hb
      · rw [List.getD_cons_succ]
        exact ih j (by omega)

lemma scan_tail_append_lt (l1 l2 : List Nat) (h : scan_tail l1 < l1.length) :
    scan_tail (l1 ++ l2) = scan_tail l1 := by
  induction l1 with
  | nil => simp [scan_tail] at h
  | cons b rest ih =>
    by_cases hb : b = B89_ST
    · simp [scan_tail, hb]
    · simp only [List.cons_append, List.append_eq, scan_tail, if_neg hb,
        List.length_cons] at h ⊢
      rw [ih (by omega)]

lemma scan_tail_append_no (l1 l2 : List Nat) (h : ∀ b ∈ l1, b ≠ B89_ST) :
    scan_tail (l1 ++ l2) = l1.length + scan_tail l2 := by
  induction l1 with
  | nil => simp
  | cons b rest ih =>
    have hb : b ≠ B89_ST := h b (List.mem_cons_self b rest)
    simp only [List.cons_append, List.append_eq, scan_tail, if_neg hb, List.length_cons]
    rw [ih (fun x hx => h x (List.mem_cons_of_mem b hx))]
    omega

/-- Bridge from the scan's 64-bit has-match expression to the byte-list
analysis: the word it tests is exactly the diff bytes `b XOR 3`. -/
lemma has_match_eq_hz (bs : List Nat) (h8 : bs.length = 8) (h256 : ∀ b ∈ bs, b < 256) :
    ((wordOfBytes bs ^^^ ST_64BIT) + 2 ^ 64 - HAS_ZERO_SUB) % 2 ^ 64 &&&
      ((wordOfBytes bs ^^^ ST_64BIT) ^^^ (2 ^ 64 - 1)) &&& HAS_ZERO_HIGH =
      hz_word (bs.map (fun b => b ^^^ 3)) := by
  have hst : ST_64BIT = repByte 3 8 := by norm_num [ST_64BIT, repByte]
  have hdiff : wordOfBytes bs ^^^ ST_64BIT = wordOfBytes (bs.map (fun b => b ^^^ 3)) := by
    rw [hst, show (8 : Nat) = bs.length from h8.symm]
    exact wordOfBytes_xor_rep 3 (by norm_num) bs h256
  rw [hdiff]
  unfold hz_word
  rw [List.length_map, h8]
  have h1 : repByte 1 8 = HAS_ZERO_SUB := by norm_num [HAS_ZERO_SUB, repByte]
  have h2 : repByte 0x80 8 = HAS_ZERO_HIGH := by norm_num [HAS_ZERO_HIGH, repByte]
  rw [show (8 * 8 : Nat) = 64 from rfl, h1, h2]

lemma scan_eq_tail_aux (N : Nat) : ∀ bytes : List Nat, bytes.length ≤ N →
    (∀ b ∈ bytes, b < 256) → scan_string_seg bytes = scan_tail bytes := by
  induction N with
  | zero =>
    intro bytes hlen _
    have hnil : bytes = [] := List.eq_nil_of_length_eq_zero (by omega)
    subst hnil
    rfl
  | succ N ih =>
    intro bytes hlen hb
    rcases bytes with _ | ⟨b0, l⟩
    · rfl
    rcases l with _ | ⟨b1, l⟩
    · rfl
    rcases l with _ | ⟨b2, l⟩
    · rfl
    rcases l with _ | ⟨b3, l⟩
    · rfl
    rcases l with _ | ⟨b4, l⟩
    · rfl
    rcases l with _ | ⟨b5, l⟩
    · rfl
    rcases l with _ | ⟨b6, l⟩
    · rfl
    rcases l with _ | ⟨b7, rest⟩
    · rfl
    have hchunk256 : ∀ b ∈ [b0, b1, b2, b3, b4, b5, b6, b7], b < 256 := by
      intro x hx
      apply hb
      simp only [List.mem_cons] at hx ⊢
      tauto
    have hds256 : ∀ d ∈ [b0, b1, b2, b3, b4, b5, b6, b7].map (fun b => b ^^^ 3),
        d < 256 := by
      intro d hd
      obtain ⟨x, hx, rfl⟩ := List.mem_map.mp hd
      have h2 : (256 : Nat) = 2 ^ 8 := by norm_num
      rw [h2]
      exact Nat.xor_lt_two_pow (by rw [← h2]; exact hchunk256 x hx) (by norm_num)
    show scan_string_seg (b0 :: b1 :: b2 :: b3 :: b4 :: b5 :: b6 :: b7 :: rest) = _
    rw [scan_string_seg]
    rw [has_match_eq_hz [b0, b1, b2, b3, b4, b5, b6, b7] rfl hchunk256]
    by_cases hmem : B89_ST ∈ [b0, b1, b2, b3, b4, b5, b6, b7]
    · have hlt : scan_tail [b0, b1, b2, b3, b4, b5, b6, b7] < 8 := by
        have := scan_tail_lt_of_mem _ hmem
        simpa using this
      have h3i : [b0, b1, b2, b3, b4, b5, b6, b7].getD
          (scan_tail [b0, b1, b2, b3, b4, b5, b6, b7]) 0 = B89_ST :=
        scan_tail_getD _ (by simpa using hlt)
      have hds0 : ([b0, b1, b2, b3, b4, b5, b6, b7].map (fun b => b ^^^ 3)).getD
          (scan_tail [b0, b1, b2, b3, b4, b5, b6, b7]) 0 = 0 := by
        rw [getD_map_lt _ _ _ (by simpa using hlt), h3i]
        simp [B89_ST]
      have hdsbef : ∀ j, j < scan_tail [b0, b1, b2, b3, b4, b5, b6, b7] →
          ([b0, b1, b2, b3, b4, b5, b6, b7].map (fun b => b ^^^ 3)).getD j 0 ≠ 0 := by
        intro j hj
        rw [getD_map_lt _ _ _ (by simp; omega)]
        have hne := scan_tail_before _ j hj
        intro hcontra
        exact hne (by
          have := Nat.xor_eq_zero.mp hcontra
          simpa [B89_ST] using this)
      obtain ⟨hlow, hbit⟩ := hz_word_first _ hds256 (scan_tail [b0, b1, b2, b3, b4, b5, b6, b7])
        (by simpa using hlt) hds0 hdsbef
      have hne : hz_word ([b0, b1, b2, b3, b4, b5, b6, b7].map (fun b => b ^^^ 3)) ≠ 0 := by
        intro h0
        rw [h0] at hbit
        simp at hbit
      rw [if_pos hne]
      have hctz : ctz (hz_word ([b0, b1, b2, b3, b4, b5, b6, b7].map (fun b => b ^^^ 3))) =
          8 * scan_tail [b0, b1, b2, b3, b4, b5, b6, b7] + 7 :=
        ctz_fuel_eq 64 _ _ (by omega) hbit hlow
      rw [show (b0 :: b1 :: b2 :: b3 :: b4 :: b5 :: b6 :: b7 :: rest) =
        [b0, b1, b2, b3, b4, b5, b6, b7] ++ rest from rfl]
      rw [scan_tail_append_lt _ _ (by simpa using hlt)]
      unfold get_first_match_index
      rw [hctz]
      omega
    · have hdsnz : ∀ d ∈ [b0, b1, b2, b3, b4, b5, b6, b7].map (fun b => b ^^^ 3),
          d ≠ 0 := by
        intro d hd
        obtain ⟨x, hx, rfl⟩ := List.mem_map.mp hd
        intro hcontra
        have hx3 : x = 3 := by simpa using Nat.xor_eq_zero.mp hcontra
        exact hmem (by rw [show B89_ST = (3 : Nat) from rfl, ← hx3]; exact hx)
      have hz0 : hz_word ([b0, b1, b2, b3, b4, b5, b6, b7].map (fun b => b ^^^ 3)) = 0 :=
        hz_word_zero _ hds256 hdsnz
      rw [if_neg (not_not_intro hz0)]
      have hrest256 : ∀ b ∈ rest, b < 256 := by
        intro x hx
        apply hb
        simp only [List.mem_cons]
        tauto
      rw [ih rest (by simp at hlen; omega) hrest256]
      rw [show (b0 :: b1 :: b2 :: b3 :: b4 :: b5 :: b6 :: b7 :: rest) =
        [b0, b1, b2, b3, b4, b5, b6, b7] ++ rest from rfl]
      rw [scan_tail_append_no _ _ (fun x hx h3 => hmem (by rw [← h3]; exact hx))]
      simp

/-- C6: the word-parallel SWAR scan advances by exactly the same amount as the
naive byte-by-byte scan, namely to the first byte equal to 0x03 or to the end
of the range: `scan_string_seg` equals the tail-loop scan, which in turn stops
at an offset that is at most the length, has no 0x03 strictly before it, and
points at a 0x03 byte whenever it is within the range. -/
theorem b89_scan_equivalence (bytes : List Nat) (hb : ∀ b ∈ bytes, b < 256) :
    scan_string_seg bytes = scan_tail bytes ∧
    scan_tail bytes ≤ bytes.length ∧
    (∀ j, j < scan_tail bytes → bytes.getD j 0 ≠ 0x03) ∧
    (scan_tail bytes < bytes.length → bytes.getD (scan_tail bytes) 0 = 0x03) := by
  exact ⟨scan_eq_tail_aux bytes.length bytes le_rfl hb, scan_tail_le bytes,
    scan_tail_before bytes, fun h => scan_tail_getD bytes h⟩

/-- Witness for C6: a 11-byte input whose escape byte sits at offset 9, past the
first 8-byte SWAR chunk, and a 10-byte input with the escape at offset 5 inside
the chunk. -/
theorem b89_scan_equivalence_witness :
    (scan_string_seg [65, 66, 67, 68, 69, 70, 71, 72, 73, 3, 74] =
      scan_tail [65, 66, 67, 68, 69, 70, 71, 72, 73, 3, 74] ∧
      scan_tail [65, 66, 67, 68, 69, 70, 71, 72, 73, 3, 74] ≤ 11 ∧
      (∀ j, j < scan_tail [65, 66, 67, 68, 69, 70, 71, 72, 73, 3, 74] →
        [65, 66, 67, 68, 69, 70, 71, 72, 73, 3, 74].getD j 0 ≠ 0x03) ∧
      (scan_tail [65, 66, 67, 68, 69, 70, 71, 72, 73, 3, 74] < 11 →
        [65, 66, 67, 68, 69, 70, 71, 72, 73, 3, 74].getD
          (scan_tail [65, 66, 67, 68, 69, 70, 71, 72, 73, 3, 74]) 0 = 0x03)) ∧
    (scan_string_seg [80, 81, 82, 83, 84, 3, 85, 86, 87, 88] =
      scan_tail [80, 81, 82, 83, 84, 3, 85, 86, 87, 88]) := by
  constructor
  · exact b89_scan_equivalence [65, 66, 67, 68, 69, 70, 71, 72, 73, 3, 74] (by decide)
  · exact (b89_scan_equivalence [80, 81, 82, 83, 84, 3, 85, 86, 87, 88] (by decide)).1

end Ftg
